import Mathlib

/-!
Shallow embedding of the proton compute-graph engine
(src/server/src/compute_graph.rs, src/server/src/node.rs,
src/shared/src/node_def.rs, src/shared/src/node_def_registry.rs,
src/shared/src/node_value.rs) together with theorems settling the
specification claims about graph preparation (wave layering, cycle and
invalid-wire handling, live-output masks) and execution.

Modelling conventions:
- Rust `HashMap`s are modelled as association lists with unique keys;
  `insert` replaces the entry with the same key.  All algorithms of the
  source are insensitive to iteration order, so the list order stands in
  for the hash map's arbitrary iteration order.
- Rust panics (`unwrap`, `panic!`) are modelled by `Option`: a function
  that can panic returns `none` in exactly the situations where the Rust
  code panics.
- Machine integers (`u32`, `u8`, `u16`) are modelled as `Nat`; none of the
  algorithms overflow them in the claims' scope.
- `f64` payloads (`NodeValue::UnconstrainedMagnitude`) are modelled by
  their 64-bit patterns as `Nat`, since no claim computes with them.
- The Rust loop in `prepare_graph_order` terminates because every
  iteration either places at least one node or errors out; the embedding
  makes this explicit with a fuel argument of `n + 1` which is proved
  sufficient where needed.
-/

namespace Proton

/-- An RGBA color with 16 bits per channel (`node_value.rs: NodeColor`). -/
abbrev NodeColor := Nat × Nat × Nat × Nat

/-- `node_value.rs: NodeValue`.  The `f64` payload of
`UnconstrainedMagnitude` is modelled by its bit pattern. -/
inductive NodeValue where
  | Trigger : NodeValue
  | Toggle (b : Bool) : NodeValue
  | Count (n : Int) : NodeValue
  | ConstrainedMagnitude (n : Nat) : NodeValue
  | UnconstrainedMagnitude (bits : Nat) : NodeValue
  | Color (c : NodeColor) : NodeValue
  | Text (s : String) : NodeValue
  | Bitmap1D (pixels : List NodeColor) : NodeValue
  | Bitmap2D (pixels : List (List NodeColor)) : NodeValue
  | Shader1D (idx : Nat) : NodeValue
  | Shader2D (idx : Nat) : NodeValue
  | Shader3D (idx : Nat) : NodeValue
deriving DecidableEq, Repr

/-- `node_value.rs: NodeValueType` (the strum discriminants of `NodeValue`). -/
inductive NodeValueType where
  | Trigger | Toggle | Count | ConstrainedMagnitude | UnconstrainedMagnitude
  | Color | Text | Bitmap1D | Bitmap2D | Shader1D | Shader2D | Shader3D
deriving DecidableEq, Repr

/-- `node.rs: NodeOutputRef` — a reference to output `node_output_index`
of the node with id `from_node_id`. -/
structure NodeOutputRef where
  from_node_id : Nat
  node_output_index : Nat
deriving DecidableEq, Repr

/-- `node.rs: NodeInput`. -/
inductive NodeInput where
  | Const (val : NodeValue)
  | Wire (ref : NodeOutputRef)
deriving DecidableEq, Repr

/-- `node.rs: Node`. -/
structure Node where
  id : Nat
  def_name : String
  inputs : List NodeInput
deriving DecidableEq, Repr

/-- `node_def.rs: NodeDefBasicDescription`. -/
structure NodeDefBasicDescription where
  name : String
  description : String
deriving DecidableEq, Repr

/-- `node_def.rs: NodeInputDef`. -/
structure NodeInputDef where
  desc : NodeDefBasicDescription
  allowed_types : List NodeValueType
  required : Bool
deriving DecidableEq, Repr

/-- `node_def.rs: NodeOutputDef`. -/
structure NodeOutputDef where
  desc : NodeDefBasicDescription
  output_type : NodeValueType
deriving DecidableEq, Repr

/-- Modelled from the spec: the stateful executor object of
`node_def.rs: NodeExecutor` (`prepare(live_outputs_mask)` then
`execute(inputs)`).  The mask passed at preparation is recorded in
`preparedMask`; the execution behaviour is the function `execFn`. -/
structure NodeExecutor where
  preparedMask : Option (List Bool)
  execFn : List NodeValue → List NodeValue

/-- `node_def.rs: OutputDevice`. -/
structure OutputDevice where
  name : String
deriving DecidableEq, Repr

/-- `node_def.rs: NodeDefRunner`.  The output-device run function is
side-effect only and produces no values, so only the device description is
carried. -/
inductive NodeDefRunner where
  | Function (f : List NodeValue → List NodeValue)
  | Executor (factory : Unit → NodeExecutor)
  | OutputDevice (device : OutputDevice)

/-- `node_def.rs: NodeDef`. -/
structure NodeDef where
  desc : NodeDefBasicDescription
  inputs : List NodeInputDef
  outputs : List NodeOutputDef
  runner : NodeDefRunner

/-- `node_def_registry.rs: NodeDefRegistry` — a map from definition name
to definition. -/
structure NodeDefRegistry where
  map : List (String × NodeDef)

/-- `node_def_registry.rs: get_def`, returning `none` where the Rust code
panics on a missing definition. -/
def lookupDef (reg : NodeDefRegistry) (name : String) : Option NodeDef :=
  (reg.map.find? fun p => p.1 = name).map Prod.snd

/-- `node_def_registry.rs: register`, returning `none` where the Rust code
panics on a duplicate name. -/
def registerDef (reg : NodeDefRegistry) (name : String) (d : NodeDef) :
    Option NodeDefRegistry :=
  if (reg.map.find? fun p => p.1 = name).isSome then none
  else some ⟨reg.map ++ [(name, d)]⟩

/-- `compute_graph.rs: ComputeGraphState`. -/
inductive ComputeGraphState where
  | Unprepared
  | ErrFoundCycle
  | ErrInvalidWire (from_node : Nat) (to_missing_node : Nat)
  | Ready
deriving DecidableEq, Repr

/-- The result store built during `execute`
(`HashMap<NodeOutputRef, NodeValue>`). -/
abbrev Store := List (NodeOutputRef × NodeValue)

/-- `compute_graph.rs: ComputeGraph`.  The rayon thread pool `runner` is
modelled by its thread count. -/
structure ComputeGraph where
  nodes : List Node
  registry : NodeDefRegistry
  state : ComputeGraphState
  waves : Option (List (List Nat))
  executors : Option (List (Nat × Option NodeExecutor))
  runner : Option Nat

/-- `HashMap::insert` on the node map: replaces the node with the same id,
otherwise appends. -/
def insertNode : List Node → Node → List Node
  | [], n => [n]
  | m :: rest, n => if m.id = n.id then n :: rest else m :: insertNode rest n

/-- `compute_graph.rs: ComputeGraph::new`. -/
def ComputeGraph.new (node_def_registry : NodeDefRegistry)
    (nodes_list : List Node) : ComputeGraph where
  nodes := nodes_list.foldl insertNode []
  registry := node_def_registry
  state := ComputeGraphState.Unprepared
  waves := none
  executors := none
  runner := none

/-- `compute_graph.rs: get_state`. -/
def ComputeGraph.get_state (g : ComputeGraph) : ComputeGraphState :=
  g.state

/-- `compute_graph.rs: set_node`. -/
def ComputeGraph.set_node (g : ComputeGraph) (node : Node) : ComputeGraph :=
  { g with
    nodes := insertNode g.nodes node
    state := ComputeGraphState.Unprepared
    waves := none }

/-- `compute_graph.rs: remove_node`. -/
def ComputeGraph.remove_node (g : ComputeGraph) (node_id : Nat) : ComputeGraph :=
  { g with
    nodes := g.nodes.filter fun n => n.id ≠ node_id
    state := ComputeGraphState.Unprepared
    waves := none }

/-- The wired dependencies of a node: the `from_node_id` of each `Wire`
input (the per-node part of `build_deps_graph`). -/
def nodeDeps (n : Node) : List Nat :=
  n.inputs.filterMap fun i =>
    match i with
    | NodeInput.Wire w => some w.from_node_id
    | NodeInput.Const _ => none

/-- `compute_graph.rs: build_deps_graph`. -/
def ComputeGraph.build_deps_graph (g : ComputeGraph) : List (Nat × List Nat) :=
  g.nodes.map fun n => (n.id, nodeDeps n)

/-- One pass of the layering loop: every not-yet-placed node whose
dependencies are all placed joins the next wave. -/
def collectWave (depGraph : List (Nat × List Nat)) (placed : List Nat) :
    List Nat :=
  depGraph.filterMap fun p =>
    if p.1 ∈ placed then none
    else if ∀ d ∈ p.2, d ∈ placed then some p.1 else none

/-- The `while` loop of `prepare_graph_order`: repeatedly collect a wave;
an empty wave while nodes remain is the cycle error (`none`).  Returns the
wave list and the running `max_parallel`.  `fuel` bounds the iteration
count; `depGraph.length + 1` is always sufficient. -/
def buildWavesAux (depGraph : List (Nat × List Nat)) :
    Nat → List Nat → List (List Nat) → Nat → Option (List (List Nat) × Nat)
  | 0, _, _, _ => none
  | fuel + 1, placed, acc, maxPar =>
    if placed.length = depGraph.length then some (acc, maxPar)
    else if collectWave depGraph placed = [] then none
    else
      buildWavesAux depGraph fuel (placed ++ collectWave depGraph placed)
        (acc ++ [collectWave depGraph placed])
        (if (collectWave depGraph placed).length > maxPar
         then (collectWave depGraph placed).length else maxPar)

/-- `compute_graph.rs: prepare_graph_order`.  Returns the maximum wave
width on success; on a cycle sets the state to `ErrFoundCycle`; returns
`none` without touching state if waves are already cached. -/
def ComputeGraph.prepare_graph_order (g : ComputeGraph) :
    Option Nat × ComputeGraph :=
  if g.waves ≠ none then (none, g)
  else
    match buildWavesAux g.build_deps_graph (g.build_deps_graph.length + 1)
        [] [] 1 with
    | none => (none, { g with state := ComputeGraphState.ErrFoundCycle })
    | some (waves, maxPar) => (some maxPar, { g with waves := some waves })

/-- `node.with_registry(..).get_output_count()`: the declared output count
of a node's definition; `none` where `get_def` panics. -/
def getOutputCount (reg : NodeDefRegistry) (n : Node) : Option Nat :=
  (lookupDef reg n.def_name).map fun d => d.outputs.length

/-- All `Wire` inputs appearing in the graph (the `all_wires` iterator of
`compute_active_outputs`). -/
def allWires (nodes : List Node) : List NodeOutputRef :=
  nodes.flatMap fun n =>
    n.inputs.filterMap fun i =>
      match i with
      | NodeInput.Wire w => some w
      | NodeInput.Const _ => none

/-- The initial all-false mask map of `compute_active_outputs`; `none`
where the output-count lookup panics on an unknown definition. -/
def initMasks (reg : NodeDefRegistry) (nodes : List Node) :
    Option (List (Nat × List Bool)) :=
  nodes.mapM fun n => (getOutputCount reg n).map fun c =>
    (n.id, List.replicate c false)

/-- `result.get_mut(&from).unwrap().get_mut(idx).unwrap() = true`: set one
mask bit, `none` where either unwrap panics (missing node entry or
out-of-range output index). -/
def setMaskBit : List (Nat × List Bool) → Nat → Nat →
    Option (List (Nat × List Bool))
  | [], _, _ => none
  | (k, mask) :: rest, v, j =>
    if k = v then
      if j < mask.length then some ((k, mask.set j true) :: rest) else none
    else
      (setMaskBit rest v j).map fun rest' => (k, mask) :: rest'

/-- `compute_graph.rs: compute_active_outputs`. -/
def ComputeGraph.compute_active_outputs (g : ComputeGraph) :
    Option (List (Nat × List Bool)) := do
  let init ← initMasks g.registry g.nodes
  (allWires g.nodes).foldlM
    (fun masks w => setMaskBit masks w.from_node_id w.node_output_index) init

/-- Modelled from the spec: `node.with_registry(..).prepare(mask)` (the
NodeWithRegistry wrapper is not part of the analysed sources).  For an
executor-factory runner it builds the executor and prepares it with the
live-output mask; pure functions and output devices get no executor.
`none` where the definition lookup panics. -/
def bindExecutor (reg : NodeDefRegistry) (n : Node) (mask : List Bool) :
    Option (Option NodeExecutor) :=
  (lookupDef reg n.def_name).map fun d =>
    match d.runner with
    | NodeDefRunner.Executor factory =>
      some { factory () with preparedMask := some mask }
    | _ => none

/-- Association-list lookup for the per-node mask map
(`active_outputs_per_node.get(id).unwrap()`). -/
def lookupMask : List (Nat × List Bool) → Nat → Option (List Bool)
  | [], _ => none
  | (k, m) :: rest, v => if k = v then some m else lookupMask rest v

/-- Read one bit of the live-output mask map (false when the vertex or
index is absent). -/
def maskBit (masks : List (Nat × List Bool)) (v j : Nat) : Bool :=
  ((lookupMask masks v).getD []).getD j false

/-- `compute_graph.rs: prepare`.  `none` models a panic inside
preparation (missing definition, mask unwrap failures). -/
def ComputeGraph.prepare (g : ComputeGraph) (max_threads : Nat) :
    Option (Bool × ComputeGraph) :=
  match g.prepare_graph_order with
  | (none, g1) => some (false, g1)
  | (some maxParallel, g1) =>
    match g1.compute_active_outputs with
    | none => none
    | some masks =>
      match g1.nodes.mapM (fun n => do
          let mask ← lookupMask masks n.id
          (bindExecutor g1.registry n mask).map fun ex => (n.id, ex)) with
      | none => none
      | some execs =>
        some (true, { g1 with
          runner := some (min maxParallel max_threads)
          executors := some execs
          state := ComputeGraphState.Ready })

/-- `HashMap::get` on the result store. -/
def storeGet : Store → NodeOutputRef → Option NodeValue
  | [], _ => none
  | (k, v) :: rest, r => if k = r then some v else storeGet rest r

/-- `HashMap::insert` on the result store. -/
def storeInsert : Store → NodeOutputRef → NodeValue → Store
  | [], r, v => [(r, v)]
  | (k, w) :: rest, r, v =>
    if k = r then (r, v) :: rest else (k, w) :: storeInsert rest r v

/-- `self.nodes.get(node_id)`. -/
def findNode (nodes : List Node) (node_id : Nat) : Option Node :=
  nodes.find? fun n => n.id = node_id

/-- `executors.get(&node_id)`, `none` where the unwrap panics. -/
def lookupExec : List (Nat × Option NodeExecutor) → Nat →
    Option (Option NodeExecutor)
  | [], _ => none
  | (k, e) :: rest, v => if k = v then some e else lookupExec rest v

/-- Modelled from the spec: `node.with_registry(..).evaluate(store, ex)`
(the NodeWithRegistry wrapper is not part of the analysed sources; its
input projection follows `node.rs: Node::evaluate` and §4.4 of the spec).
Each `Const` input yields its value, each `Wire` input reads the result
store (`none` where the unwrap on a missing entry panics); the runner is
then invoked — a pure function directly, a stateful executor through its
`execute`, an output device yielding the empty output sequence. -/
def evalNode (reg : NodeDefRegistry) (n : Node) (store : Store)
    (ex : Option NodeExecutor) : Option (List NodeValue) := do
  let vals ← n.inputs.mapM fun i =>
    match i with
    | NodeInput.Const v => some v
    | NodeInput.Wire w => storeGet store w
  let d ← lookupDef reg n.def_name
  match d.runner with
  | NodeDefRunner.Function f => some (f vals)
  | NodeDefRunner.Executor _ => ex.map fun e => e.execFn vals
  | NodeDefRunner.OutputDevice _ => some []

/-- The write phase of one wave: insert output `j` of each node under the
key `(node_id, j)`. -/
def insertOutputsFrom (store : Store) (node_id : Nat) (j : Nat) :
    List NodeValue → Store
  | [] => store
  | v :: vs => insertOutputsFrom (storeInsert store ⟨node_id, j⟩ v) node_id (j + 1) vs

/-- Publish the results of one wave into the store, in wave order. -/
def writeWave (store : Store) (wave : List Nat)
    (results : List (List NodeValue)) : Store :=
  (wave.zip results).foldl (fun st p => insertOutputsFrom st p.1 0 p.2) store

/-- `compute_graph.rs: execute`.  The outer `Option` models panics inside
the evaluation loop; the `Except` carries the precondition error string of
the source. -/
def ComputeGraph.execute (g : ComputeGraph) : Option (Except String Store) :=
  if g.state = ComputeGraphState.Ready then do
    let execs ← g.executors
    let waves ← g.waves
    let final ← waves.foldlM (fun store wave => do
        let results ← wave.mapM fun node_id => do
          let n ← findNode g.nodes node_id
          let ex ← lookupExec execs node_id
          evalNode g.registry n store ex
        pure (writeWave store wave results)) ([] : Store)
    pure (Except.ok final)
  else some (Except.error "Must call .prepare() before executing the graph.")

/-! Concrete graphs used by the claims' scenarios (the test registry of
`compute_graph.rs: executes_simple_graphs` and §8 of the spec). -/

/-- The `output_1` definition: no inputs, one `Count` output, always 1. -/
def oneDef : NodeDef where
  desc := ⟨"Test Node", "Test Description"⟩
  inputs := []
  outputs := [⟨⟨"Generic output", "Generic output description"⟩, NodeValueType.Count⟩]
  runner := NodeDefRunner.Function fun _ => [NodeValue.Count 1]

/-- The `add` definition: two `Count` inputs, one `Count` output, their
sum.  The Rust macro-generated wrapper panics on ill-typed inputs; that
branch is unreachable in every use below and is modelled by `[]`. -/
def addDef : NodeDef where
  desc := ⟨"Test Node", "Test Description"⟩
  inputs := [⟨⟨"count_1", "Automatic description of input count_1"⟩, [NodeValueType.Count], true⟩,
             ⟨⟨"count_2", "Automatic description of input count_2"⟩, [NodeValueType.Count], true⟩]
  outputs := [⟨⟨"Generic output", "Generic output description"⟩, NodeValueType.Count⟩]
  runner := NodeDefRunner.Function fun vals =>
    match vals with
    | [NodeValue.Count a, NodeValue.Count b] => [NodeValue.Count (a + b)]
    | _ => []

/-- Registry holding `output_1` and `add`. -/
def testRegistry : NodeDefRegistry :=
  ⟨[("output_1", oneDef), ("add", addDef)]⟩

/-- The diamond scenario: `1 = one()`, `2 = add(Wire(1,0), Const 3)`,
`3 = add(Wire(1,0), Const 5)`, `4 = add(Wire(2,0), Wire(3,0))`. -/
def diamondNodes : List Node :=
  [⟨1, "output_1", []⟩,
   ⟨2, "add", [NodeInput.Wire ⟨1, 0⟩, NodeInput.Const (NodeValue.Count 3)]⟩,
   ⟨3, "add", [NodeInput.Wire ⟨1, 0⟩, NodeInput.Const (NodeValue.Count 5)]⟩,
   ⟨4, "add", [NodeInput.Wire ⟨2, 0⟩, NodeInput.Wire ⟨3, 0⟩]⟩]

/-- The diamond graph. -/
def diamondGraph : ComputeGraph := ComputeGraph.new testRegistry diamondNodes

/-- The diamond graph after a successful `prepare 2`. -/
def diamondPrepared : ComputeGraph :=
  match diamondGraph.prepare 2 with
  | some p => p.2
  | none => diamondGraph

/-- The cycle scenario: `1 = add(Wire(2,0), Const 0)`,
`2 = add(Wire(1,0), Const 0)`. -/
def cycleGraph : ComputeGraph := ComputeGraph.new testRegistry
  [⟨1, "add", [NodeInput.Wire ⟨2, 0⟩, NodeInput.Const (NodeValue.Count 0)]⟩,
   ⟨2, "add", [NodeInput.Wire ⟨1, 0⟩, NodeInput.Const (NodeValue.Count 0)]⟩]

/-- The invalid-wire scenario: `1 = add(Wire(99,0), Const 0)` where no
vertex 99 exists. -/
def invalidWireGraph : ComputeGraph := ComputeGraph.new testRegistry
  [⟨1, "add", [NodeInput.Wire ⟨99, 0⟩, NodeInput.Const (NodeValue.Count 0)]⟩]

/-- An out-of-range output index: vertex 1 declares one output but vertex
2 wires its output index 1. -/
def oorWireGraph : ComputeGraph := ComputeGraph.new testRegistry
  [⟨1, "output_1", []⟩,
   ⟨2, "add", [NodeInput.Wire ⟨1, 1⟩, NodeInput.Const (NodeValue.Count 0)]⟩]

/-- A graph with an empty vertex map. -/
def emptyGraph : ComputeGraph := ComputeGraph.new ⟨[]⟩ []

/-! Specification-level predicates about graphs and layerings. -/

/-- Vertex `a` has a `Wire` input drawing from vertex `b`. -/
def hasWireDep (g : ComputeGraph) (a b : Nat) : Prop :=
  ∃ n ∈ g.nodes, n.id = a ∧ b ∈ nodeDeps n

instance (g : ComputeGraph) (a b : Nat) : Decidable (hasWireDep g a b) :=
  List.decidableBEx _ g.nodes

/-- The nonempty list `c` is a directed cycle among the graph's wires:
consecutive entries (cyclically) are joined by wire dependencies. -/
def IsCycle (g : ComputeGraph) (c : List Nat) : Prop :=
  c ≠ [] ∧ ∀ i, i < c.length →
    hasWireDep g (c.getD i 0) (c.getD ((i + 1) % c.length) 0)

instance (g : ComputeGraph) (c : List Nat) : Decidable (IsCycle g c) :=
  instDecidableAnd

/-- A valid layering of the graph: every vertex appears in some wave, and
every wired dependency of a vertex in wave `k` appears in a strictly
earlier wave. -/
def ValidLayering (g : ComputeGraph) (L : List (List Nat)) : Prop :=
  (∀ n ∈ g.nodes, ∃ k, k < L.length ∧ n.id ∈ L.getD k []) ∧
  (∀ k, k < L.length → ∀ v ∈ L.getD k [], ∀ n ∈ g.nodes, n.id = v →
    ∀ d ∈ nodeDeps n, ∃ j, j < k ∧ d ∈ L.getD j [])

instance (g : ComputeGraph) (L : List (List Nat)) : Decidable (ValidLayering g L) :=
  instDecidableAnd

/-! Theorems settling the claims, preceded by supporting lemmas about the
wave-layering loop. -/

theorem mem_collectWave {dg : List (Nat × List Nat)} {placed : List Nat}
    {v : Nat} :
    v ∈ collectWave dg placed ↔
      ∃ deps, (v, deps) ∈ dg ∧ v ∉ placed ∧ ∀ d ∈ deps, d ∈ placed := by
  simp only [collectWave, List.mem_filterMap]
  constructor
  · rintro ⟨⟨a, deps⟩, hmem, hf⟩
    split at hf
    · exact absurd hf (by simp)
    · split at hf
      · rename_i h1 h2
        injection hf with hf
        subst hf
        exact ⟨deps, hmem, h1, h2⟩
      · exact absurd hf (by simp)
  · rintro ⟨deps, hmem, h1, h2⟩
    refine ⟨(v, deps), hmem, ?_⟩
    rw [if_neg h1, if_pos h2]

theorem collectWave_sublist (dg : List (Nat × List Nat)) (placed : List Nat) :
    (collectWave dg placed).Sublist (dg.map Prod.fst) := by
  induction dg with
  | nil => simp [collectWave]
  | cons p dg ih =>
    simp only [collectWave, List.filterMap_cons, List.map_cons] at *
    by_cases h1 : p.1 ∈ placed
    · rw [if_pos h1]
      exact ih.cons p.1
    · rw [if_neg h1]
      by_cases h2 : ∀ d ∈ p.2, d ∈ placed
      · rw [if_pos h2]
        exact ih.cons₂ p.1
      · rw [if_neg h2]
        exact ih.cons p.1

theorem collectWave_subset_keys {dg : List (Nat × List Nat)}
    {placed : List Nat} {v : Nat} (h : v ∈ collectWave dg placed) :
    v ∈ dg.map Prod.fst :=
  (collectWave_sublist dg placed).mem h

theorem collectWave_nodup {dg : List (Nat × List Nat)} {placed : List Nat}
    (h : (dg.map Prod.fst).Nodup) : (collectWave dg placed).Nodup :=
  h.sublist (collectWave_sublist dg placed)

theorem buildWavesAux_spec (dg : List (Nat × List Nat)) :
    ∀ (fuel : Nat) (placed : List Nat) (acc : List (List Nat)) (maxPar : Nat)
      (ws : List (List Nat)) (mp : Nat),
      buildWavesAux dg fuel placed acc maxPar = some (ws, mp) →
      ∃ tl, ws = acc ++ tl ∧
        (∀ k, k < tl.length →
          tl.getD k [] = collectWave dg (placed ++ (tl.take k).flatten) ∧
          tl.getD k [] ≠ []) ∧
        placed.length + tl.flatten.length = dg.length := by
  intro fuel
  induction fuel with
  | zero =>
    intro placed acc maxPar ws mp h
    simp [buildWavesAux] at h
  | succ fuel ih =>
    intro placed acc maxPar ws mp h
    rw [buildWavesAux] at h
    split at h
    · rename_i hlen
      injection h with h'
      cases h'
      refine ⟨[], by simp, ?_, by simpa using hlen⟩
      intro k hk
      simp at hk
    · split at h
      · exact absurd h (by simp)
      · rename_i hlen hwave
        obtain ⟨tl', hws, hprops, hcount⟩ := ih _ _ _ _ _ h
        refine ⟨collectWave dg placed :: tl', ?_, ?_, ?_⟩
        · simpa using hws
        · intro k hk
          match k with
          | 0 => simpa using hwave
          | j + 1 =>
            have hj : j < tl'.length := by simpa using hk
            have := hprops j hj
            simpa [List.append_assoc] using this
        · simp only [List.flatten_cons, List.length_append] at *
          omega

theorem depGraph_keys (g : ComputeGraph) :
    g.build_deps_graph.map Prod.fst = g.nodes.map Node.id := by
  simp [ComputeGraph.build_deps_graph, List.map_map, Function.comp]

theorem mem_depGraph {g : ComputeGraph} {v : Nat} {deps : List Nat} :
    (v, deps) ∈ g.build_deps_graph ↔
      ∃ n ∈ g.nodes, n.id = v ∧ deps = nodeDeps n := by
  simp only [ComputeGraph.build_deps_graph, List.mem_map]
  constructor
  · rintro ⟨n, hn, h⟩
    injection h with h1 h2
    exact ⟨n, hn, h1, h2.symm⟩
  · rintro ⟨n, hn, h1, h2⟩
    exact ⟨n, hn, by rw [h1, h2]⟩

theorem node_eq_of_id_eq {g : ComputeGraph}
    (hnd : (g.nodes.map Node.id).Nodup) {a b : Node}
    (ha : a ∈ g.nodes) (hb : b ∈ g.nodes) (h : a.id = b.id) : a = b :=
  List.inj_on_of_nodup_map hnd ha hb h

theorem depGraph_entry_unique {g : ComputeGraph}
    (hnd : (g.nodes.map Node.id).Nodup) {v : Nat} {a b : List Nat}
    (ha : (v, a) ∈ g.build_deps_graph) (hb : (v, b) ∈ g.build_deps_graph) :
    a = b := by
  obtain ⟨n1, hn1, hid1, hd1⟩ := mem_depGraph.mp ha
  obtain ⟨n2, hn2, hid2, hd2⟩ := mem_depGraph.mp hb
  have : n1 = n2 := node_eq_of_id_eq hnd hn1 hn2 (by rw [hid1, hid2])
  rw [hd1, hd2, this]

theorem prepare_true_inversion {g : ComputeGraph} {t : Nat} {g' : ComputeGraph}
    (hp : g.prepare t = some (true, g')) :
    g.waves = none ∧
    ∃ ws mp,
      buildWavesAux g.build_deps_graph (g.build_deps_graph.length + 1) [] [] 1
        = some (ws, mp) ∧
      g'.waves = some ws ∧
      (∃ masks, g.compute_active_outputs = some masks) ∧
      g'.state = ComputeGraphState.Ready := by
  unfold ComputeGraph.prepare at hp
  split at hp
  · rename_i g1 heq
    simp at hp
  · rename_i mp g1 heq
    unfold ComputeGraph.prepare_graph_order at heq
    split at heq
    · simp at heq
    · rename_i hwaves
      have hwnone : g.waves = none := by
        by_cases h : g.waves = none
        · exact h
        · exact absurd (by exact h) (by simpa using hwaves)
      split at heq
      · simp at heq
      · rename_i ws mp' hbuild
        injection heq with heq1 heq2
        subst heq2
        split at hp
        · simp at hp
        · rename_i masks hmasks
          split at hp
          · simp at hp
          · rename_i execs hexecs
            injection hp with hp
            injection hp with hp1 hp2
            refine ⟨hwnone, ws, mp', hbuild, ?_, ⟨masks, ?_⟩, ?_⟩
            · rw [← hp2]
            · exact hmasks
            · rw [← hp2]

theorem mem_flatten_take {ws : List (List Nat)} {k : Nat} {d : Nat} :
    d ∈ (ws.take k).flatten ↔
      ∃ j, j < k ∧ j < ws.length ∧ d ∈ ws.getD j [] := by
  induction ws generalizing k with
  | nil => simp
  | cons w ws ih =>
    cases k with
    | zero => simp
    | succ k =>
      simp only [List.take_succ_cons, List.flatten_cons, List.mem_append, ih]
      constructor
      · rintro (h | ⟨j, h1, h2, h3⟩)
        · exact ⟨0, Nat.succ_pos _, by simp, by simpa using h⟩
        · exact ⟨j + 1, by omega, by simpa using h2, by simpa using h3⟩
      · rintro ⟨j, h1, h2, h3⟩
        cases j with
        | zero => exact Or.inl (by simpa using h3)
        | succ j =>
          exact Or.inr ⟨j, by omega, by simpa using h2, by simpa using h3⟩

theorem flatten_take_succ {ws : List (List Nat)} {k : Nat}
    (hk : k < ws.length) :
    (ws.take (k + 1)).flatten = (ws.take k).flatten ++ ws.getD k [] := by
  induction ws generalizing k with
  | nil => simp at hk
  | cons w ws ih =>
    cases k with
    | zero => simp
    | succ k =>
      have := ih (k := k) (by simpa using hk)
      simp only [List.take_succ_cons, List.flatten_cons, List.getD_cons_succ,
        this, List.append_assoc]

theorem prepare_waves_trace {g : ComputeGraph} {t : Nat} {g' : ComputeGraph}
    (hp : g.prepare t = some (true, g'))
    {ws : List (List Nat)} (hw : g'.waves = some ws) :
    (∀ k, k < ws.length →
      ws.getD k [] = collectWave g.build_deps_graph ((ws.take k).flatten) ∧
      ws.getD k [] ≠ []) ∧
    ws.flatten.length = g.nodes.length := by
  obtain ⟨-, ws', mp, hbuild, hw', -, -⟩ := prepare_true_inversion hp
  have hws : ws = ws' := by
    rw [hw] at hw'
    injection hw'
  subst hws
  obtain ⟨tl, htl, hprops, hcount⟩ := buildWavesAux_spec _ _ _ _ _ _ _ hbuild
  have htl' : ws = tl := by simpa using htl
  subst htl'
  constructor
  · intro k hk
    have := hprops k hk
    simpa using this
  · have hdg : g.build_deps_graph.length = g.nodes.length := by
      simp [ComputeGraph.build_deps_graph]
    simp only [List.length_nil] at hcount
    omega

theorem getD_mem {l : List Nat} {i : Nat} (h : i < l.length) :
    l.getD i 0 ∈ l := by
  induction l generalizing i with
  | nil => simp at h
  | cons x l ih =>
    cases i with
    | zero => simp
    | succ i => exact List.mem_cons_of_mem x (ih (by simpa using h))

theorem mem_getD {l : List Nat} {v : Nat} (h : v ∈ l) :
    ∃ i, i < l.length ∧ l.getD i 0 = v := by
  induction l with
  | nil => simp at h
  | cons x l ih =>
    rcases List.mem_cons.mp h with h | h
    · exact ⟨0, by simp, by simp [h]⟩
    · obtain ⟨i, hi, hv⟩ := ih h
      exact ⟨i + 1, by simpa using hi, by simpa using hv⟩

theorem cycle_mem_keys {g : ComputeGraph} {c : List Nat} (hc : IsCycle g c) :
    ∀ v ∈ c, v ∈ g.nodes.map Node.id := by
  intro v hv
  obtain ⟨i, hi, hgv⟩ := mem_getD hv
  obtain ⟨n, hn, hid, -⟩ := hc.2 i hi
  rw [hgv] at hid
  exact List.mem_map.mpr ⟨n, hn, hid⟩

theorem cycle_succ_mem {g : ComputeGraph} {c : List Nat} (hc : IsCycle g c) :
    ∀ v ∈ c, ∃ d, hasWireDep g v d ∧ d ∈ c := by
  intro v hv
  obtain ⟨i, hi, hgv⟩ := mem_getD hv
  have hlenpos : 0 < c.length := List.length_pos.mpr hc.1
  refine ⟨c.getD ((i + 1) % c.length) 0, ?_, getD_mem (Nat.mod_lt _ hlenpos)⟩
  rw [← hgv]
  exact hc.2 i hi

theorem buildWavesAux_cycle_none {g : ComputeGraph}
    (hnd : (g.nodes.map Node.id).Nodup) {c : List Nat} (hc : IsCycle g c) :
    ∀ (fuel : Nat) (placed : List Nat) (acc : List (List Nat)) (maxPar : Nat),
      placed.Nodup → (∀ p ∈ placed, p ∈ g.nodes.map Node.id) →
      (∀ v ∈ c, v ∉ placed) →
      buildWavesAux g.build_deps_graph fuel placed acc maxPar = none := by
  have hkeys : (g.build_deps_graph.map Prod.fst).Nodup := by
    rw [depGraph_keys]; exact hnd
  intro fuel
  induction fuel with
  | zero => intros; rfl
  | succ fuel ih =>
    intro placed acc maxPar hpnd hpsub hdisj
    rw [buildWavesAux]
    by_cases hlen : placed.length = g.build_deps_graph.length
    · exfalso
      have hkl : (g.nodes.map Node.id).length = g.build_deps_graph.length := by
        simp [ComputeGraph.build_deps_graph]
      have hsp : placed.Subperm (g.nodes.map Node.id) :=
        hpnd.subperm fun x hx => hpsub x hx
      have hperm : placed.Perm (g.nodes.map Node.id) :=
        hsp.perm_of_length_le (by omega)
      obtain ⟨v0, hv0⟩ := List.exists_mem_of_ne_nil c hc.1
      exact hdisj v0 hv0 (hperm.mem_iff.mpr (cycle_mem_keys hc v0 hv0))
    · rw [if_neg hlen]
      by_cases hempty : collectWave g.build_deps_graph placed = []
      · rw [if_pos hempty]
      · rw [if_neg hempty]
        have hwave_sub : ∀ w ∈ collectWave g.build_deps_graph placed,
            w ∈ g.nodes.map Node.id := by
          intro w hw
          have := collectWave_subset_keys hw
          rwa [depGraph_keys] at this
        apply ih
        · refine hpnd.append (collectWave_nodup hkeys) ?_
          intro a ha hmem
          exact (mem_collectWave.mp hmem).choose_spec.2.1 ha
        · intro p hp
          rcases List.mem_append.mp hp with h | h
          · exact hpsub p h
          · exact hwave_sub p h
        · intro v hv
          rw [List.mem_append]
          push_neg
          refine ⟨hdisj v hv, ?_⟩
          intro hvw
          obtain ⟨deps, hentry, hnp, hsub⟩ := mem_collectWave.mp hvw
          obtain ⟨d, ⟨n, hn, hid, hdn⟩, hdc⟩ := cycle_succ_mem hc v hv
          have hentry' : (v, nodeDeps n) ∈ g.build_deps_graph :=
            mem_depGraph.mpr ⟨n, hn, hid, rfl⟩
          have : deps = nodeDeps n := depGraph_entry_unique hnd hentry hentry'
          subst this
          exact hdisj d hdc (hsub d hdn)

/-- C2: every graph (with distinct vertex ids and no cached waves) that
contains a directed cycle among its wires makes `prepare` return false
with the state set to `ErrFoundCycle` — the layering loop produces an
empty wave while the cycle's vertices remain unplaced. -/
theorem cycle_yields_err_cycle (g : ComputeGraph) (t : Nat)
    (hnd : (g.nodes.map Node.id).Nodup) (hw : g.waves = none)
    (hcyc : ∃ c, IsCycle g c) :
    g.prepare t
      = some (false, { g with state := ComputeGraphState.ErrFoundCycle }) := by
  obtain ⟨c, hc⟩ := hcyc
  have hnone : buildWavesAux g.build_deps_graph
      (g.build_deps_graph.length + 1) [] [] 1 = none :=
    buildWavesAux_cycle_none hnd hc _ [] [] 1 List.nodup_nil
      (by simp) (by simp)
  unfold ComputeGraph.prepare ComputeGraph.prepare_graph_order
  rw [if_neg (by simp [hw]), hnone]

/-- C2 witness: the two-vertex cycle `1 = add(Wire(2,0), Const 0)`,
`2 = add(Wire(1,0), Const 0)` is rejected with `ErrFoundCycle`. -/
theorem cycle_yields_err_cycle_witness :
    cycleGraph.prepare 1
      = some (false, { cycleGraph with state := ComputeGraphState.ErrFoundCycle }) :=
  cycle_yields_err_cycle cycleGraph 1 (by decide) rfl ⟨[1, 2], by decide⟩

/-- C3: whenever `prepare` succeeds, every vertex placed in a wave `k > 0`
has each of its wired dependencies placed in some strictly earlier wave
`j < k`. -/
theorem wave_dependency_closure
    (g : ComputeGraph) (t : Nat) (g' : ComputeGraph)
    (hnd : (g.nodes.map Node.id).Nodup)
    (hp : g.prepare t = some (true, g'))
    (ws : List (List Nat)) (hw : g'.waves = some ws)
    (k : Nat) (hk0 : 0 < k) (hk : k < ws.length)
    (v : Nat) (hv : v ∈ ws.getD k [])
    (n : Node) (hn : n ∈ g.nodes) (hid : n.id = v)
    (d : Nat) (hd : d ∈ nodeDeps n) :
    ∃ j, j < k ∧ d ∈ ws.getD j [] := by
  obtain ⟨htrace, -⟩ := prepare_waves_trace hp hw
  obtain ⟨hwave, -⟩ := htrace k hk
  rw [hwave] at hv
  obtain ⟨deps, hdep_mem, hnotp, hsub⟩ := mem_collectWave.mp hv
  have hentry : (v, nodeDeps n) ∈ g.build_deps_graph :=
    mem_depGraph.mpr ⟨n, hn, hid, rfl⟩
  have hdeps_eq : deps = nodeDeps n := depGraph_entry_unique hnd hdep_mem hentry
  subst hdeps_eq
  obtain ⟨j, hj1, hj2, hj3⟩ := mem_flatten_take.mp (hsub d hd)
  exact ⟨j, hj1, hj3⟩

/-- C3 witness: in the prepared diamond graph, vertex 2 sits in wave 1 and
its dependency 1 sits in wave 0. -/
theorem wave_dependency_closure_witness :
    ∃ j, j < 1 ∧ 1 ∈ ([[1], [2, 3], [4]] : List (List Nat)).getD j [] :=
  wave_dependency_closure diamondGraph 2 diamondPrepared (by decide) (by rfl)
    [[1], [2, 3], [4]] (by rfl) 1 (by decide) (by decide) 2 (by decide)
    ⟨2, "add", [NodeInput.Wire ⟨1, 0⟩, NodeInput.Const (NodeValue.Count 3)]⟩
    (by decide) (by decide) 1 (by decide)

/-- C4: whenever `prepare` succeeds, no valid layering of the same DAG
(every vertex placed, all wired dependencies in strictly earlier waves)
uses strictly fewer waves than the computed one. -/
theorem wave_count_minimal
    (g : ComputeGraph) (t : Nat) (g' : ComputeGraph)
    (hnd : (g.nodes.map Node.id).Nodup)
    (hp : g.prepare t = some (true, g'))
    (ws : List (List Nat)) (hw : g'.waves = some ws)
    (L : List (List Nat)) (hL : ValidLayering g L) :
    ws.length ≤ L.length := by
  obtain ⟨htrace, hcount⟩ := prepare_waves_trace hp hw
  have key : ∀ k, k < ws.length → ∀ v ∈ ws.getD k [],
      ∀ j, j < L.length → v ∈ L.getD j [] → k ≤ j := by
    intro k
    induction k using Nat.strong_induction_on with
    | _ k ih =>
      intro hk v hv j hj hvL
      cases k with
      | zero => omega
      | succ k' =>
        obtain ⟨hwave, -⟩ := htrace (k' + 1) hk
        rw [hwave] at hv
        obtain ⟨deps, hentry, hnp, hsub⟩ := mem_collectWave.mp hv
        have hk' : k' < ws.length := by omega
        have hnotk' : v ∉ ws.getD k' [] := by
          intro hmem
          apply hnp
          rw [flatten_take_succ hk']
          exact List.mem_append.mpr (Or.inr hmem)
        have hnp' : v ∉ (ws.take k').flatten := by
          intro hmem
          apply hnp
          rw [flatten_take_succ hk']
          exact List.mem_append.mpr (Or.inl hmem)
        obtain ⟨hwave', -⟩ := htrace k' hk'
        have hnotall : ¬ (∀ d ∈ deps, d ∈ (ws.take k').flatten) := by
          intro hall
          refine hnotk' ?_
          rw [hwave']
          exact mem_collectWave.mpr ⟨deps, hentry, hnp', hall⟩
        push_neg at hnotall
        obtain ⟨d, hd, hdnp⟩ := hnotall
        have hdk' : d ∈ ws.getD k' [] := by
          have hdp : d ∈ (ws.take (k' + 1)).flatten := hsub d hd
          rw [flatten_take_succ hk'] at hdp
          rcases List.mem_append.mp hdp with h | h
          · exact absurd h hdnp
          · exact h
        obtain ⟨n, hn, hid, hdeps⟩ := mem_depGraph.mp hentry
        have hd' : d ∈ nodeDeps n := by rw [← hdeps]; exact hd
        obtain ⟨j2, hj2, hdL⟩ := hL.2 j hj v hvL n hn hid d hd'
        have hle : k' ≤ j2 := ih k' (by omega) hk' d hdk' j2 (by omega) hdL
        omega
  by_cases hlen : ws.length = 0
  · omega
  · have hlast : ws.length - 1 < ws.length := by omega
    obtain ⟨hwave, hne⟩ := htrace (ws.length - 1) hlast
    obtain ⟨v, hv⟩ := List.exists_mem_of_ne_nil _ hne
    have hv' := hv
    rw [hwave] at hv'
    have hvkey := collectWave_subset_keys hv'
    rw [depGraph_keys] at hvkey
    obtain ⟨n, hn, hid⟩ := List.mem_map.mp hvkey
    obtain ⟨jv, hjv, hvL⟩ := hL.1 n hn
    rw [hid] at hvL
    have := key (ws.length - 1) hlast v hv jv hjv hvL
    omega

/-- C4 witness: the diamond graph's own three-wave layering is valid, and
the computed layering indeed uses at most that many waves. -/
theorem wave_count_minimal_witness :
    ([[1], [2, 3], [4]] : List (List Nat)).length
      ≤ ([[1], [2, 3], [4]] : List (List Nat)).length :=
  wave_count_minimal diamondGraph 2 diamondPrepared (by decide) (by rfl)
    [[1], [2, 3], [4]] (by rfl) [[1], [2, 3], [4]] (by decide)

theorem getD_set_self {l : List Bool} {i : Nat} (h : i < l.length) (x : Bool) :
    (l.set i x).getD i false = x := by
  induction l generalizing i with
  | nil => simp at h
  | cons y l ih =>
    cases i with
    | zero => simp
    | succ i => simpa using ih (by simpa using h)

theorem getD_set_ne {l : List Bool} {i j : Nat} (h : i ≠ j) (x : Bool) :
    (l.set i x).getD j false = l.getD j false := by
  induction l generalizing i j with
  | nil => simp
  | cons y l ih =>
    cases i with
    | zero =>
      cases j with
      | zero => exact absurd rfl h
      | succ j => simp
    | succ i =>
      cases j with
      | zero => simp
      | succ j => simpa using ih (show i ≠ j by omega)

theorem getD_replicate {c j : Nat} :
    (List.replicate c false).getD j false = false := by
  induction c generalizing j with
  | zero => simp
  | succ c ih =>
    cases j with
    | zero => simp [List.replicate]
    | succ j => simpa [List.replicate] using ih

theorem lookupMask_mem {l : List (Nat × List Bool)} {v : Nat} {m : List Bool}
    (h : lookupMask l v = some m) : (v, m) ∈ l := by
  induction l with
  | nil => simp [lookupMask] at h
  | cons p l ih =>
    obtain ⟨k, mask⟩ := p
    rw [lookupMask] at h
    by_cases hk : k = v
    · rw [if_pos hk] at h
      injection h with h
      subst hk h
      exact List.mem_cons_self _ _
    · rw [if_neg hk] at h
      exact List.mem_cons_of_mem _ (ih h)

theorem mem_lookupMask {l : List (Nat × List Bool)} {v : Nat} {m : List Bool}
    (hnd : (l.map Prod.fst).Nodup) (h : (v, m) ∈ l) :
    lookupMask l v = some m := by
  induction l with
  | nil => simp at h
  | cons p l ih =>
    obtain ⟨k, mask⟩ := p
    have hnd' := List.nodup_cons.mp
      (show (k :: l.map Prod.fst).Nodup from hnd)
    rcases List.mem_cons.mp h with h | h
    · injection h with h1 h2
      subst h1
      subst h2
      simp [lookupMask]
    · have hk : k ≠ v := by
        intro hkv
        subst hkv
        exact hnd'.1 (List.mem_map.mpr ⟨(k, m), h, rfl⟩)
      rw [lookupMask, if_neg hk]
      exact ih hnd'.2 h

theorem lookupMask_isSome_of_key {l : List (Nat × List Bool)} {v : Nat}
    (h : v ∈ l.map Prod.fst) : (lookupMask l v).isSome := by
  induction l with
  | nil => simp at h
  | cons p l ih =>
    obtain ⟨k, mask⟩ := p
    rw [lookupMask]
    by_cases hk : k = v
    · rw [if_pos hk]; rfl
    · rw [if_neg hk]
      refine ih ?_
      rcases List.mem_map.mp h with ⟨e, he, hev⟩
      rcases List.mem_cons.mp he with he' | he'
      · exact absurd (by rw [he'] at hev; exact hev) hk
      · exact List.mem_map.mpr ⟨e, he', hev⟩

theorem setMaskBit_spec {masks masks' : List (Nat × List Bool)} {v j : Nat}
    (h : setMaskBit masks v j = some masks') :
    lookupMask masks' v = (lookupMask masks v).map (fun m => m.set j true) ∧
    (∀ v', v' ≠ v → lookupMask masks' v' = lookupMask masks v') ∧
    (∃ m, lookupMask masks v = some m ∧ j < m.length) ∧
    masks'.map Prod.fst = masks.map Prod.fst := by
  induction masks generalizing masks' with
  | nil => simp [setMaskBit] at h
  | cons p masks ih =>
    obtain ⟨k, mask⟩ := p
    rw [setMaskBit] at h
    by_cases hk : k = v
    · rw [if_pos hk] at h
      by_cases hj : j < mask.length
      · rw [if_pos hj] at h
        injection h with h
        subst h
        subst hk
        refine ⟨by simp [lookupMask], ?_, ⟨mask, by simp [lookupMask], hj⟩, by simp⟩
        intro v' hv'
        have hk' : k ≠ v' := fun he => hv' he.symm
        simp [lookupMask, hk']
      · rw [if_neg hj] at h
        exact absurd h (by simp)
    · rw [if_neg hk] at h
      cases hrec : setMaskBit masks v j with
      | none => rw [hrec] at h; simp at h
      | some rest' =>
        rw [hrec] at h
        injection h with h
        subst h
        obtain ⟨h1, h2, h3, h4⟩ := ih hrec
        refine ⟨by simpa [lookupMask, hk] using h1, ?_,
          by simpa [lookupMask, hk] using h3, by simpa using h4⟩
        intro v' hv'
        by_cases hkv : k = v'
        · simp [lookupMask, hkv]
        · simp only [lookupMask, if_neg hkv]
          exact h2 v' hv'

theorem fold_setMaskBit_spec (ws0 : List NodeOutputRef) :
    ∀ (masks masks' : List (Nat × List Bool)),
      ws0.foldlM
        (fun ms w => setMaskBit ms w.from_node_id w.node_output_index) masks
        = some masks' →
      masks'.map Prod.fst = masks.map Prod.fst ∧
      (∀ v, (lookupMask masks' v).map List.length
        = (lookupMask masks v).map List.length) ∧
      (∀ v k, maskBit masks' v k = true ↔
        maskBit masks v k = true ∨
        ∃ w ∈ ws0, w.from_node_id = v ∧ w.node_output_index = k) := by
  induction ws0 with
  | nil =>
    intro masks masks' h
    simp only [List.foldlM_nil] at h
    injection h with h
    subst h
    exact ⟨rfl, fun v => rfl, by simp⟩
  | cons w ws0 ih =>
    intro masks masks' h
    simp only [List.foldlM_cons] at h
    cases hstep : setMaskBit masks w.from_node_id w.node_output_index with
    | none => rw [hstep] at h; simp at h
    | some m1 =>
      rw [hstep] at h
      simp only [Option.bind_eq_bind, Option.some_bind] at h
      obtain ⟨hkeys1, hlen1, hbits1⟩ := ih m1 masks' h
      obtain ⟨hv1, hother1, ⟨m0, hm0, hj0⟩, hkeys0⟩ := setMaskBit_spec hstep
      refine ⟨by rw [hkeys1, hkeys0], ?_, ?_⟩
      · intro v
        rw [hlen1 v]
        by_cases hv : v = w.from_node_id
        · subst hv
          rw [hv1, hm0]
          simp
        · rw [hother1 v hv]
      · intro v k
        rw [hbits1 v k]
        have hstepbit : maskBit m1 v k = true ↔
            maskBit masks v k = true ∨
            (w.from_node_id = v ∧ w.node_output_index = k) := by
          by_cases hv : v = w.from_node_id
          · subst hv
            rw [maskBit, hv1, hm0]
            by_cases hkj : k = w.node_output_index
            · subst hkj
              simp only [Option.map_some', Option.getD_some]
              rw [getD_set_self hj0]
              simp [maskBit, hm0]
            · simp only [Option.map_some', Option.getD_some]
              rw [getD_set_ne (fun he => hkj he.symm)]
              have hkj' : ¬(w.node_output_index = k) := fun he => hkj he.symm
              simp [maskBit, hm0, hkj']
          · rw [maskBit, hother1 v (fun he => hv he)]
            constructor
            · intro hb
              exact Or.inl hb
            · rintro (hb | ⟨he, -⟩)
              · exact hb
              · exact absurd he.symm hv
        rw [hstepbit]
        constructor
        · rintro ((hb | hwv) | ⟨w', hw', h1, h2⟩)
          · exact Or.inl hb
          · exact Or.inr ⟨w, List.mem_cons_self _ _, hwv.1, hwv.2⟩
          · exact Or.inr ⟨w', List.mem_cons_of_mem _ hw', h1, h2⟩
        · rintro (hb | ⟨w', hw', h1, h2⟩)
          · exact Or.inl (Or.inl hb)
          · rcases List.mem_cons.mp hw' with he | he
            · subst he
              exact Or.inl (Or.inr ⟨h1, h2⟩)
            · exact Or.inr ⟨w', he, h1, h2⟩

theorem initMasks_spec {reg : NodeDefRegistry} {nodes : List Node}
    {init : List (Nat × List Bool)} (h : initMasks reg nodes = some init) :
    init.map Prod.fst = nodes.map Node.id ∧
    (∀ n ∈ nodes, ∃ c, getOutputCount reg n = some c ∧
      (n.id, List.replicate c false) ∈ init) ∧
    (∀ e ∈ init, ∃ n ∈ nodes, n.id = e.1 ∧ ∃ c,
      getOutputCount reg n = some c ∧ e.2 = List.replicate c false) := by
  induction nodes generalizing init with
  | nil =>
    simp only [initMasks, List.mapM_nil] at h
    injection h with h
    subst h
    simp
  | cons n nodes ih =>
    simp only [initMasks, List.mapM_cons] at h
    cases hc : getOutputCount reg n with
    | none => rw [hc] at h; simp at h
    | some c =>
      rw [hc] at h
      cases hrest : initMasks reg nodes with
      | none =>
        unfold initMasks at hrest
        rw [hrest] at h
        simp at h
      | some rest =>
        unfold initMasks at hrest
        rw [hrest] at h
        simp only [Option.map_some', Option.bind_eq_bind, Option.some_bind] at h
        injection h with h
        subst h
        obtain ⟨h1, h2, h3⟩ := ih hrest
        refine ⟨by simpa using h1, ?_, ?_⟩
        · intro m hm
          rcases List.mem_cons.mp hm with he | he
          · subst he
            exact ⟨c, hc, List.mem_cons_self _ _⟩
          · obtain ⟨c', hc', hmem⟩ := h2 m he
            exact ⟨c', hc', List.mem_cons_of_mem _ hmem⟩
        · intro e he
          rcases List.mem_cons.mp he with he' | he'
          · subst he'
            exact ⟨n, List.mem_cons_self _ _, rfl, c, hc, rfl⟩
          · obtain ⟨n', hn', hid, c', hc', hrep⟩ := h3 e he'
            exact ⟨n', List.mem_cons_of_mem _ hn', hid, c', hc', hrep⟩

theorem initMasks_bit {reg : NodeDefRegistry} {nodes : List Node}
    {init : List (Nat × List Bool)} (h : initMasks reg nodes = some init) :
    ∀ v k, maskBit init v k = false := by
  intro v k
  rw [maskBit]
  cases hl : lookupMask init v with
  | none => simp
  | some m =>
    obtain ⟨n', hn', hid, c, hc, hrep⟩ :=
      (initMasks_spec h).2.2 (v, m) (lookupMask_mem hl)
    simp only [Option.getD_some]
    rw [show m = List.replicate c false from hrep]
    exact getD_replicate

theorem mem_allWires {nodes : List Node} {w : NodeOutputRef} :
    w ∈ allWires nodes ↔ ∃ n ∈ nodes, NodeInput.Wire w ∈ n.inputs := by
  simp only [allWires, List.mem_flatMap, List.mem_filterMap]
  constructor
  · rintro ⟨n, hn, i, hi, hf⟩
    cases i with
    | Const v => simp at hf
    | Wire w' =>
      simp only [Option.some.injEq] at hf
      subst hf
      exact ⟨n, hn, hi⟩
  · rintro ⟨n, hn, hi⟩
    exact ⟨n, hn, NodeInput.Wire w, hi, rfl⟩

/-- C6: whenever `prepare` succeeds on a graph with distinct vertex ids,
every vertex has a live-output mask entry whose length is the declared
output count of its definition, and whose bit `j` is true exactly when
some wire in the graph has `from_node_id` equal to the vertex and
`node_output_index` equal to `j`. -/
theorem live_mask_correct
    (g : ComputeGraph) (t : Nat) (g' : ComputeGraph)
    (hnd : (g.nodes.map Node.id).Nodup)
    (hp : g.prepare t = some (true, g')) :
    ∃ masks, g.compute_active_outputs = some masks ∧
      ∀ n ∈ g.nodes, ∃ mask, (n.id, mask) ∈ masks ∧
        (∀ d, lookupDef g.registry n.def_name = some d →
          mask.length = d.outputs.length) ∧
        (∀ j, mask.getD j false = true ↔
          ∃ m ∈ g.nodes, ∃ w, NodeInput.Wire w ∈ m.inputs ∧
            w.from_node_id = n.id ∧ w.node_output_index = j) := by
  obtain ⟨-, ws, mp, -, -, ⟨masks, hmasks⟩, -⟩ := prepare_true_inversion hp
  refine ⟨masks, hmasks, ?_⟩
  unfold ComputeGraph.compute_active_outputs at hmasks
  cases hinit : initMasks g.registry g.nodes with
  | none => rw [hinit] at hmasks; simp at hmasks
  | some init =>
    rw [hinit] at hmasks
    simp only [Option.bind_eq_bind, Option.some_bind] at hmasks
    obtain ⟨hkeys0, hforall, hrep⟩ := initMasks_spec hinit
    obtain ⟨hkeysF, hlenF, hbitsF⟩ := fold_setMaskBit_spec _ _ _ hmasks
    intro n hn
    obtain ⟨c, hc, hmem⟩ := hforall n hn
    have hkey : n.id ∈ masks.map Prod.fst := by
      rw [hkeysF, hkeys0]
      exact List.mem_map.mpr ⟨n, hn, rfl⟩
    obtain ⟨mask, hmask⟩ :=
      Option.isSome_iff_exists.mp (lookupMask_isSome_of_key hkey)
    have hinitnd : (init.map Prod.fst).Nodup := by rw [hkeys0]; exact hnd
    have hlookup0 : lookupMask init n.id = some (List.replicate c false) :=
      mem_lookupMask hinitnd hmem
    refine ⟨mask, lookupMask_mem hmask, ?_, ?_⟩
    · intro d hd
      have hlen := hlenF n.id
      rw [hmask, hlookup0] at hlen
      simp only [Option.map_some', Option.some.injEq,
        List.length_replicate] at hlen
      rw [hlen]
      unfold getOutputCount at hc
      rw [hd] at hc
      simp only [Option.map_some', Option.some.injEq] at hc
      omega
    · intro j
      have hbit : maskBit masks n.id j = mask.getD j false := by
        rw [maskBit, hmask]
        rfl
      have hiff := hbitsF n.id j
      rw [hbit, initMasks_bit hinit n.id j] at hiff
      constructor
      · intro hb
        rcases hiff.mp hb with h | ⟨w, hw, h1, h2⟩
        · exact absurd h (by simp)
        · obtain ⟨m, hm, hwm⟩ := mem_allWires.mp hw
          exact ⟨m, hm, w, hwm, h1, h2⟩
      · rintro ⟨m, hm, w, hwm, h1, h2⟩
        exact hiff.mpr (Or.inr ⟨w, mem_allWires.mpr ⟨m, hm, hwm⟩, h1, h2⟩)

/-- C6 witness: the live-mask property instantiated on the diamond graph
prepared with two threads. -/
theorem live_mask_correct_witness :
    ∃ masks, diamondGraph.compute_active_outputs = some masks ∧
      ∀ n ∈ diamondGraph.nodes, ∃ mask, (n.id, mask) ∈ masks ∧
        (∀ d, lookupDef diamondGraph.registry n.def_name = some d →
          mask.length = d.outputs.length) ∧
        (∀ j, mask.getD j false = true ↔
          ∃ m ∈ diamondGraph.nodes, ∃ w, NodeInput.Wire w ∈ m.inputs ∧
            w.from_node_id = n.id ∧ w.node_output_index = j) :=
  live_mask_correct diamondGraph 2 diamondPrepared (by decide) (by rfl)

theorem foldlM_eq_none {α β : Type} (f : β → α → Option β) (P : β → Prop)
    (hpres : ∀ b a b', P b → f b a = some b' → P b')
    (x : α) (hfail : ∀ b, P b → f b x = none) :
    ∀ (l : List α), x ∈ l → ∀ b, P b → l.foldlM f b = none := by
  intro l
  induction l with
  | nil => intro hx; simp at hx
  | cons a l ih =>
    intro hx b hb
    simp only [List.foldlM_cons]
    rcases List.mem_cons.mp hx with he | he
    · subst he
      rw [hfail b hb]
      rfl
    · cases hfa : f b a with
      | none => rfl
      | some b' =>
        simp only [Option.bind_eq_bind, Option.some_bind]
        exact ih he b' (hpres b a b' hb hfa)

theorem compute_active_outputs_oor {g : ComputeGraph}
    (hnd : (g.nodes.map Node.id).Nodup)
    {n : Node} (hn : n ∈ g.nodes) {w : NodeOutputRef}
    (hw : NodeInput.Wire w ∈ n.inputs)
    {p : Node} (hp : p ∈ g.nodes) (hpid : p.id = w.from_node_id)
    {c : Nat} (hc : getOutputCount g.registry p = some c)
    (hoor : c ≤ w.node_output_index) :
    g.compute_active_outputs = none := by
  unfold ComputeGraph.compute_active_outputs
  cases hinit : initMasks g.registry g.nodes with
  | none => simp
  | some init =>
    simp only [Option.bind_eq_bind, Option.some_bind]
    obtain ⟨hkeys0, hforall, hrep⟩ := initMasks_spec hinit
    have hinitnd : (init.map Prod.fst).Nodup := by rw [hkeys0]; exact hnd
    refine foldlM_eq_none _
      (fun masks => ∀ m, lookupMask masks w.from_node_id = some m →
        m.length = c) ?_ w ?_ (allWires g.nodes)
      (mem_allWires.mpr ⟨n, hn, hw⟩) init ?_
    · intro b a b' hb hstep m hm
      obtain ⟨hv1, hother, -, -⟩ := setMaskBit_spec hstep
      by_cases hva : w.from_node_id = a.from_node_id
      · rw [hva, hv1] at hm
        cases hlb : lookupMask b a.from_node_id with
        | none => rw [hlb] at hm; simp at hm
        | some m0 =>
          rw [hlb] at hm
          simp only [Option.map_some', Option.some.injEq] at hm
          have hlb' : lookupMask b w.from_node_id = some m0 := by
            rw [hva]; exact hlb
          rw [← hm]
          simpa using hb m0 hlb'
      · rw [hother _ hva] at hm
        exact hb m hm
    · intro b hb
      cases hsm : setMaskBit b w.from_node_id w.node_output_index with
      | none => rfl
      | some b' =>
        exfalso
        obtain ⟨-, -, ⟨m, hm, hj⟩, -⟩ := setMaskBit_spec hsm
        have := hb m hm
        omega
    · intro m hm
      obtain ⟨c', hc', hmem⟩ := hforall p hp
      have hcc : c' = c := by
        rw [hc'] at hc
        injection hc
      subst hcc
      have hlk : lookupMask init p.id = some (List.replicate c' false) :=
        mem_lookupMask hinitnd hmem
      rw [hpid] at hlk
      rw [hlk] at hm
      injection hm with hm
      rw [← hm]
      simp

theorem prepare_graph_order_fields (g : ComputeGraph) :
    (g.prepare_graph_order).2.nodes = g.nodes ∧
    (g.prepare_graph_order).2.registry = g.registry := by
  unfold ComputeGraph.prepare_graph_order
  split
  · exact ⟨rfl, rfl⟩
  · split
    · exact ⟨rfl, rfl⟩
    · exact ⟨rfl, rfl⟩

/-- C8 amended: a `Wire` whose `output_index` is at least the producing
vertex's declared output count makes `prepare` panic inside
`compute_active_outputs` whenever the layering phase succeeds — the error
surfaces during `prepare`, never as an execute-time `ErrInvalidWire`. -/
theorem oor_wire_panics_during_prepare
    (g : ComputeGraph) (t : Nat)
    (hnd : (g.nodes.map Node.id).Nodup)
    (n : Node) (hn : n ∈ g.nodes) (w : NodeOutputRef)
    (hw : NodeInput.Wire w ∈ n.inputs)
    (p : Node) (hp : p ∈ g.nodes) (hpid : p.id = w.from_node_id)
    (c : Nat) (hc : getOutputCount g.registry p = some c)
    (hoor : c ≤ w.node_output_index)
    (hlay : (g.prepare_graph_order).1.isSome = true) :
    g.prepare t = none := by
  have hfields := prepare_graph_order_fields g
  unfold ComputeGraph.prepare
  cases hpo : g.prepare_graph_order with
  | mk a g1 =>
    rw [hpo] at hlay hfields
    cases a with
    | none => simp at hlay
    | some m =>
      have hco : g1.compute_active_outputs = none :=
        compute_active_outputs_oor (g := g1)
          (by rw [hfields.1]; exact hnd)
          (n := n) (by rw [hfields.1]; exact hn) (w := w) hw
          (p := p) (by rw [hfields.1]; exact hp) hpid
          (c := c) (by rw [hfields.2]; exact hc) hoor
      simp only [hco]

/-- C8 amended witness: `prepare` panics on the graph wiring output index
1 of the single-output vertex 1. -/
theorem oor_wire_panics_witness : oorWireGraph.prepare 2 = none :=
  oor_wire_panics_during_prepare oorWireGraph 2 (by decide)
    ⟨2, "add", [NodeInput.Wire ⟨1, 1⟩, NodeInput.Const (NodeValue.Count 0)]⟩
    (by decide) ⟨1, 1⟩ (by decide)
    ⟨1, "output_1", []⟩ (by decide) (by decide)
    1 (by decide) (by decide) (by decide)

theorem mem_nodeDeps {n : Node} {d : Nat} :
    d ∈ nodeDeps n ↔ ∃ w, NodeInput.Wire w ∈ n.inputs ∧ w.from_node_id = d := by
  simp only [nodeDeps, List.mem_filterMap]
  constructor
  · rintro ⟨i, hi, hf⟩
    cases i with
    | Const v => simp at hf
    | Wire w =>
      simp only [Option.some.injEq] at hf
      exact ⟨w, hi, hf⟩
  · rintro ⟨w, hw, hd⟩
    exact ⟨NodeInput.Wire w, hw, by simp [hd]⟩

theorem mapM_isSome {α β : Type} (f : α → Option β) :
    ∀ (l : List α), (∀ a ∈ l, (f a).isSome) → (l.mapM f).isSome := by
  intro l
  induction l with
  | nil =>
    intro h
    rw [List.mapM_nil]
    rfl
  | cons a l ih =>
    intro h
    simp only [List.mapM_cons]
    obtain ⟨b, hb⟩ :=
      Option.isSome_iff_exists.mp (h a (List.mem_cons_self _ _))
    obtain ⟨bs, hbs⟩ := Option.isSome_iff_exists.mp
      (ih fun x hx => h x (List.mem_cons_of_mem _ hx))
    rw [hb, hbs]
    rfl

theorem foldlM_isSome {α β : Type} (f : β → α → Option β) (P : β → Prop)
    (hpres : ∀ b a b', P b → f b a = some b' → P b') :
    ∀ (l : List α) (b : β), P b →
      (∀ a ∈ l, ∀ b', P b' → (f b' a).isSome) → (l.foldlM f b).isSome := by
  intro l
  induction l with
  | nil => intro b hb hstep; simp
  | cons a l ih =>
    intro b hb hstep
    simp only [List.foldlM_cons]
    obtain ⟨b', hb'⟩ := Option.isSome_iff_exists.mp
      (hstep a (List.mem_cons_self _ _) b hb)
    rw [hb']
    simp only [Option.bind_eq_bind, Option.some_bind]
    exact ih b' (hpres b a b' hb hb')
      (fun x hx => hstep x (List.mem_cons_of_mem _ hx))

theorem setMaskBit_isSome {masks : List (Nat × List Bool)} {v j : Nat}
    {m : List Bool} (hm : lookupMask masks v = some m) (hj : j < m.length) :
    (setMaskBit masks v j).isSome := by
  induction masks generalizing m with
  | nil => simp [lookupMask] at hm
  | cons p masks ih =>
    obtain ⟨k, mask⟩ := p
    rw [lookupMask] at hm
    rw [setMaskBit]
    by_cases hk : k = v
    · rw [if_pos hk] at hm
      injection hm with hm
      subst hm
      rw [if_pos hk, if_pos hj]
      rfl
    · rw [if_neg hk] at hm
      rw [if_neg hk]
      obtain ⟨rest', hrest'⟩ :=
        Option.isSome_iff_exists.mp (ih hm hj)
      rw [hrest']
      rfl

theorem compute_active_outputs_keys {g : ComputeGraph}
    {masks : List (Nat × List Bool)}
    (h : g.compute_active_outputs = some masks) :
    masks.map Prod.fst = g.nodes.map Node.id := by
  unfold ComputeGraph.compute_active_outputs at h
  cases hinit : initMasks g.registry g.nodes with
  | none => rw [hinit] at h; simp at h
  | some init =>
    rw [hinit] at h
    simp only [Option.bind_eq_bind, Option.some_bind] at h
    rw [(fold_setMaskBit_spec _ _ _ h).1, (initMasks_spec hinit).1]

theorem compute_active_outputs_isSome {g : ComputeGraph}
    (hnd : (g.nodes.map Node.id).Nodup)
    (hdefs : ∀ n ∈ g.nodes, (lookupDef g.registry n.def_name).isSome)
    (hWires : ∀ w ∈ allWires g.nodes, ∃ p ∈ g.nodes,
      p.id = w.from_node_id ∧
      w.node_output_index < (getOutputCount g.registry p).getD 0) :
    (g.compute_active_outputs).isSome := by
  have hinit_some : (initMasks g.registry g.nodes).isSome := by
    refine mapM_isSome _ g.nodes fun n hn => ?_
    have := hdefs n hn
    simpa [getOutputCount] using this
  obtain ⟨init, hinit⟩ := Option.isSome_iff_exists.mp hinit_some
  unfold ComputeGraph.compute_active_outputs
  rw [hinit]
  simp only [Option.bind_eq_bind, Option.some_bind]
  obtain ⟨hkeys0, hforall, hentries⟩ := initMasks_spec hinit
  refine foldlM_isSome _
    (fun masks => masks.map Prod.fst = g.nodes.map Node.id ∧
      ∀ v m, lookupMask masks v = some m → ∀ n ∈ g.nodes, n.id = v →
        m.length = (getOutputCount g.registry n).getD 0)
    ?_ (allWires g.nodes) init ⟨hkeys0, ?_⟩ ?_
  · rintro b a b' ⟨hbk, hbl⟩ hstep
    obtain ⟨hv1, hother, ⟨m0, hm0, hj0⟩, hkeysb⟩ := setMaskBit_spec hstep
    refine ⟨by rw [hkeysb, hbk], ?_⟩
    intro v m hm n hn hid
    by_cases hva : v = a.from_node_id
    · subst hva
      rw [hv1, hm0] at hm
      simp only [Option.map_some', Option.some.injEq] at hm
      rw [← hm]
      simp only [List.length_set]
      exact hbl a.from_node_id m0 hm0 n hn hid
    · rw [hother v hva] at hm
      exact hbl v m hm n hn hid
  · intro v m hm n hn hid
    obtain ⟨n', hn', hid', c, hc, hrep⟩ := hentries (v, m) (lookupMask_mem hm)
    have hne : n' = n := node_eq_of_id_eq hnd hn' hn (by rw [hid', hid])
    subst hne
    rw [show m = List.replicate c false from hrep, hc]
    simp
  · rintro a ha b' ⟨hbk, hbl⟩
    obtain ⟨p, hp, hpid, hlt⟩ := hWires a ha
    have hkey : a.from_node_id ∈ b'.map Prod.fst := by
      rw [hbk, ← hpid]
      exact List.mem_map.mpr ⟨p, hp, rfl⟩
    obtain ⟨m, hm⟩ :=
      Option.isSome_iff_exists.mp (lookupMask_isSome_of_key hkey)
    have hml : m.length = (getOutputCount g.registry p).getD 0 :=
      hbl _ m hm p hp hpid
    exact setMaskBit_isSome hm (by omega)

theorem getD_map_range (f : Nat → Nat) {n m : Nat} (h : m < n) :
    ((List.range n).map f).getD m 0 = f m := by
  rw [List.getD_eq_getElem?_getD, List.getElem?_map, List.getElem?_range h]
  rfl

theorem no_cycle_of_rank (g : ComputeGraph) (rank : Nat → Nat)
    (hr : ∀ a b, hasWireDep g a b → rank b < rank a) :
    ¬ ∃ c, IsCycle g c := by
  rintro ⟨c, hne, hstep⟩
  have hlen : 0 < c.length := List.length_pos.mpr hne
  obtain ⟨i0, hi0mem, hi0min⟩ :=
    Finset.exists_min_image (Finset.range c.length)
      (fun i => rank (c.getD i 0)) ⟨0, Finset.mem_range.mpr hlen⟩
  have hi0 : i0 < c.length := Finset.mem_range.mp hi0mem
  have hlt := hr _ _ (hstep i0 hi0)
  have hge := hi0min ((i0 + 1) % c.length)
    (Finset.mem_range.mpr (Nat.mod_lt (i0 + 1) hlen))
  omega

theorem collectWave_progress {g : ComputeGraph}
    (hnd : (g.nodes.map Node.id).Nodup)
    (hdepkeys : ∀ n ∈ g.nodes, ∀ d ∈ nodeDeps n, d ∈ g.nodes.map Node.id)
    (hnc : ¬ ∃ c, IsCycle g c)
    (placed : List Nat)
    (hex : ∃ v ∈ g.nodes.map Node.id, v ∉ placed) :
    collectWave g.build_deps_graph placed ≠ [] := by
  intro hempty
  apply hnc
  classical
  obtain ⟨v0, hv0k, hv0p⟩ := hex
  have hstep : ∀ u, u ∈ g.nodes.map Node.id → u ∉ placed →
      ∃ d, (d ∈ g.nodes.map Node.id ∧ d ∉ placed) ∧ hasWireDep g u d := by
    intro u huk hup
    obtain ⟨n, hn, hid⟩ := List.mem_map.mp huk
    have hentry : (u, nodeDeps n) ∈ g.build_deps_graph :=
      mem_depGraph.mpr ⟨n, hn, hid, rfl⟩
    have hnotall : ¬ ∀ d ∈ nodeDeps n, d ∈ placed := by
      intro hall
      have hu : u ∈ collectWave g.build_deps_graph placed :=
        mem_collectWave.mpr ⟨nodeDeps n, hentry, hup, hall⟩
      rw [hempty] at hu
      simp at hu
    push_neg at hnotall
    obtain ⟨d, hd, hdp⟩ := hnotall
    exact ⟨d, ⟨hdepkeys n hn d hd, hdp⟩, ⟨n, hn, hid, hd⟩⟩
  have hFex : ∀ x : {y : Nat // y ∈ g.nodes.map Node.id ∧ y ∉ placed},
      ∃ d, (d ∈ g.nodes.map Node.id ∧ d ∉ placed) ∧ hasWireDep g x.1 d :=
    fun x => hstep x.1 x.2.1 x.2.2
  choose F hFmem hFedge using hFex
  let G : {y : Nat // y ∈ g.nodes.map Node.id ∧ y ∉ placed} →
      {y : Nat // y ∈ g.nodes.map Node.id ∧ y ∉ placed} :=
    fun x => ⟨F x, hFmem x⟩
  let x0 : {y : Nat // y ∈ g.nodes.map Node.id ∧ y ∉ placed} :=
    ⟨v0, hv0k, hv0p⟩
  have hseq_edge : ∀ k, hasWireDep g (G^[k] x0).1 (G^[k + 1] x0).1 := by
    intro k
    have h1 : G^[k + 1] x0 = G (G^[k] x0) :=
      Function.iterate_succ_apply' G k x0
    rw [h1]
    exact hFedge _
  obtain ⟨i, -, j, -, hij, hveq⟩ :=
    Finset.exists_ne_map_eq_of_card_lt_of_maps_to
      (s := (Finset.univ :
        Finset (Fin ((g.nodes.map Node.id).toFinset.card + 1))))
      (t := (g.nodes.map Node.id).toFinset)
      (by simpa using Nat.lt_succ_self (g.nodes.map Node.id).toFinset.card)
      (f := fun i => (G^[i.1] x0).1)
      (fun i _ => List.mem_toFinset.mpr (G^[i.1] x0).2.1)
  have build : ∀ a b : Nat, a < b → (G^[a] x0).1 = (G^[b] x0).1 →
      ∃ c, IsCycle g c := by
    intro a b hab hval
    refine ⟨(List.range (b - a)).map (fun m => (G^[a + m] x0).1), ?_, ?_⟩
    · have hba : b - a ≠ 0 := by omega
      simpa using hba
    · intro m hm
      simp only [List.length_map, List.length_range] at hm ⊢
      rw [getD_map_range _ hm]
      by_cases hlast : m + 1 < b - a
      · rw [Nat.mod_eq_of_lt hlast, getD_map_range _ hlast]
        have he := hseq_edge (a + m)
        rw [show a + (m + 1) = a + m + 1 from by omega]
        exact he
      · have hm1 : m + 1 = b - a := by omega
        rw [hm1, Nat.mod_self, getD_map_range _ (show 0 < b - a by omega)]
        have he := hseq_edge (a + m)
        have heq2 : (G^[a + m + 1] x0).1 = (G^[a + 0] x0).1 := by
          rw [show a + m + 1 = b from by omega, show a + 0 = a from by omega]
          exact hval.symm
        rw [← heq2]
        exact he
  rcases Nat.lt_or_ge i.1 j.1 with h | h
  · exact build i.1 j.1 h hveq
  · have hji : j.1 < i.1 := by
      rcases Nat.lt_or_ge j.1 i.1 with h' | h'
      · exact h'
      · exact absurd (Fin.ext (by omega)) hij
    exact build j.1 i.1 hji hveq.symm

theorem buildWavesAux_success {g : ComputeGraph}
    (hnd : (g.nodes.map Node.id).Nodup)
    (hdepkeys : ∀ n ∈ g.nodes, ∀ d ∈ nodeDeps n, d ∈ g.nodes.map Node.id)
    (hnc : ¬ ∃ c, IsCycle g c) :
    ∀ (fuel : Nat) (placed : List Nat) (acc : List (List Nat)) (maxPar : Nat),
      placed.Nodup → (∀ x ∈ placed, x ∈ g.nodes.map Node.id) →
      g.nodes.length - placed.length < fuel →
      (buildWavesAux g.build_deps_graph fuel placed acc maxPar).isSome := by
  intro fuel
  induction fuel with
  | zero =>
    intro placed acc maxPar h1 h2 h3
    omega
  | succ fuel ih =>
    intro placed acc maxPar hpnd hpsub hfuel
    rw [buildWavesAux]
    by_cases hlen : placed.length = g.build_deps_graph.length
    · rw [if_pos hlen]
      rfl
    · rw [if_neg hlen]
      have hdglen : g.build_deps_graph.length = g.nodes.length := by
        simp [ComputeGraph.build_deps_graph]
      have hple : placed.length ≤ g.nodes.length := by
        have hsp : placed.Subperm (g.nodes.map Node.id) :=
          hpnd.subperm fun x hx => hpsub x hx
        have := hsp.length_le
        simpa using this
      have hex : ∃ v ∈ g.nodes.map Node.id, v ∉ placed := by
        by_contra hno
        push_neg at hno
        have hsp : (g.nodes.map Node.id).Subperm placed :=
          hnd.subperm fun x hx => hno x hx
        have := hsp.length_le
        simp only [List.length_map] at this
        omega
      have hprog := collectWave_progress hnd hdepkeys hnc placed hex
      rw [if_neg hprog]
      have hwnd : (collectWave g.build_deps_graph placed).Nodup :=
        collectWave_nodup (by rw [depGraph_keys]; exact hnd)
      have hwsub : ∀ x ∈ collectWave g.build_deps_graph placed,
          x ∈ g.nodes.map Node.id := by
        intro x hx
        have := collectWave_subset_keys hx
        rwa [depGraph_keys] at this
      have hdisj : ∀ a ∈ placed,
          a ∉ collectWave g.build_deps_graph placed := by
        intro a ha hmem
        exact (mem_collectWave.mp hmem).choose_spec.2.1 ha
      apply ih
      · exact hpnd.append hwnd hdisj
      · intro x hx
        rcases List.mem_append.mp hx with h | h
        · exact hpsub x h
        · exact hwsub x h
      · have hwl : 0 < (collectWave g.build_deps_graph placed).length :=
          List.length_pos.mpr hprog
        simp only [List.length_append]
        omega

/-- C7 amended: for every graph with distinct vertex ids, no cached waves,
no directed wire cycle, every definition registered, and every wire
pointing at an existing vertex with an in-range output index, `prepare`
returns true leaving the state `Ready`; a second call to `prepare` on the
resulting graph then returns false (the cached waves short-circuit it), so
"every call returns true" holds only for the first call.  Failures of the
layering phase — cycles, and also wires to missing vertices — are all
recorded as `ErrFoundCycle`. -/
theorem prepare_succeeds_on_valid_dag
    (g : ComputeGraph) (t : Nat)
    (hnd : (g.nodes.map Node.id).Nodup)
    (hw : g.waves = none)
    (hnc : ¬ ∃ c, IsCycle g c)
    (hdefs : ∀ n ∈ g.nodes, (lookupDef g.registry n.def_name).isSome)
    (hWires : ∀ w ∈ allWires g.nodes, ∃ p ∈ g.nodes,
      p.id = w.from_node_id ∧
      w.node_output_index < (getOutputCount g.registry p).getD 0) :
    ∃ g', g.prepare t = some (true, g') ∧
      g'.get_state = ComputeGraphState.Ready ∧
      ∀ t2, (g'.prepare t2).map Prod.fst = some false := by
  have hdepkeys : ∀ n ∈ g.nodes, ∀ d ∈ nodeDeps n,
      d ∈ g.nodes.map Node.id := by
    intro n hn d hd
    obtain ⟨w, hwmem, hwid⟩ := mem_nodeDeps.mp hd
    obtain ⟨p, hp, hpid, -⟩ := hWires w (mem_allWires.mpr ⟨n, hn, hwmem⟩)
    rw [← hwid, ← hpid]
    exact List.mem_map.mpr ⟨p, hp, rfl⟩
  have hsucc := buildWavesAux_success hnd hdepkeys hnc
    (g.build_deps_graph.length + 1) [] [] 1 List.nodup_nil (by simp)
    (by simp [ComputeGraph.build_deps_graph])
  obtain ⟨⟨ws, mp⟩, hbuild⟩ := Option.isSome_iff_exists.mp hsucc
  have hpo : g.prepare_graph_order = (some mp, { g with waves := some ws }) := by
    unfold ComputeGraph.prepare_graph_order
    rw [if_neg (by simp [hw]), hbuild]
  have hcm : (({ g with waves := some ws } :
      ComputeGraph).compute_active_outputs).isSome :=
    compute_active_outputs_isSome (g := { g with waves := some ws })
      hnd hdefs hWires
  obtain ⟨masks, hmasks⟩ := Option.isSome_iff_exists.mp hcm
  have hkeysm : masks.map Prod.fst = g.nodes.map Node.id :=
    compute_active_outputs_keys (g := { g with waves := some ws }) hmasks
  have hexecs : ((({ g with waves := some ws } :
      ComputeGraph).nodes.mapM (fun (n : Node) => do
        let mask ← lookupMask masks n.id
        (bindExecutor ({ g with waves := some ws} :
          ComputeGraph).registry n mask).map fun ex => (n.id, ex))).isSome) := by
    refine mapM_isSome _ _ fun n hn => ?_
    have hkey : n.id ∈ masks.map Prod.fst := by
      rw [hkeysm]
      exact List.mem_map.mpr ⟨n, hn, rfl⟩
    obtain ⟨mask, hmask⟩ :=
      Option.isSome_iff_exists.mp (lookupMask_isSome_of_key hkey)
    obtain ⟨d, hd⟩ := Option.isSome_iff_exists.mp (hdefs n hn)
    rw [hmask]
    simp only [Option.bind_eq_bind, Option.some_bind]
    rw [bindExecutor, hd]
    rfl
  obtain ⟨execs, hexecs'⟩ := Option.isSome_iff_exists.mp hexecs
  refine ⟨{ ({ g with waves := some ws } : ComputeGraph) with
    runner := some (min mp t), executors := some execs,
    state := ComputeGraphState.Ready }, ?_, rfl, ?_⟩
  · unfold ComputeGraph.prepare
    rw [hpo]
    simp only [hmasks, hexecs']
  · intro t2
    unfold ComputeGraph.prepare ComputeGraph.prepare_graph_order
    rw [if_pos (by simp)]
    rfl

/-- C7 amended witness: the diamond graph is a valid DAG (witnessed by a
rank function decreasing along wire dependencies); its first `prepare`
returns true with state `Ready` and any second `prepare` returns false. -/
theorem prepare_succeeds_on_valid_dag_witness :
    ∃ g', diamondGraph.prepare 2 = some (true, g') ∧
      g'.get_state = ComputeGraphState.Ready ∧
      ∀ t2, (g'.prepare t2).map Prod.fst = some false :=
  prepare_succeeds_on_valid_dag diamondGraph 2 (by decide) rfl
    (no_cycle_of_rank diamondGraph
      (fun v => if v = 1 then 0 else if v = 2 ∨ v = 3 then 1 else 2)
      (by
        rintro a b ⟨n, hn, hid, hd⟩
        subst hid
        have hn' : n = ⟨1, "output_1", []⟩ ∨
            n = ⟨2, "add", [NodeInput.Wire ⟨1, 0⟩,
              NodeInput.Const (NodeValue.Count 3)]⟩ ∨
            n = ⟨3, "add", [NodeInput.Wire ⟨1, 0⟩,
              NodeInput.Const (NodeValue.Count 5)]⟩ ∨
            n = ⟨4, "add", [NodeInput.Wire ⟨2, 0⟩,
              NodeInput.Wire ⟨3, 0⟩]⟩ := by
          have hlist : diamondGraph.nodes = diamondNodes := rfl
          rw [hlist] at hn
          simpa [diamondNodes] using hn
        rcases hn' with h | h | h | h
        · subst h
          simp [nodeDeps] at hd
        · subst h
          simp [nodeDeps] at hd
          subst hd
          decide
        · subst h
          simp [nodeDeps] at hd
          subst hd
          decide
        · subst h
          simp [nodeDeps] at hd
          rcases hd with hd | hd <;> subst hd <;> decide))
    (by decide) (by decide)

/-- C1: on the graph `1 = add(Wire(99,0), Const 0)` whose wire references
the missing vertex 99, `prepare` returns false but the state becomes
`ErrFoundCycle`, not the `ErrInvalidWire{from: 1, to_missing: 99}` the
claim demands — the analyzer performs no invalid-wire detection before
wave layering and `ErrInvalidWire` is never constructed by the code. -/
theorem invalid_wire_reported_as_found_cycle :
    ((invalidWireGraph.prepare 2).map fun p => (p.1, p.2.get_state))
      = some (false, ComputeGraphState.ErrFoundCycle) ∧
    ComputeGraphState.ErrFoundCycle ≠ ComputeGraphState.ErrInvalidWire 1 99 := by
  decide

/-- C5: on the diamond graph `1 = one()`, `2 = add(Wire(1,0), Const 3)`,
`3 = add(Wire(1,0), Const 5)`, `4 = add(Wire(2,0), Wire(3,0))`, `prepare`
succeeds with waves `[{1}, {2,3}, {4}]` and `execute` returns a store
whose entry at `(4,0)` is `count(10)`. -/
theorem diamond_graph_end_to_end :
    ((diamondGraph.prepare 2).map fun p =>
      (p.1, p.2.waves.map (List.map List.toFinset), p.2.get_state))
      = some (true, some [{1}, ({2, 3} : Finset Nat), {4}], ComputeGraphState.Ready) ∧
    ((diamondGraph.prepare 2).bind fun p =>
      (p.2.execute).map fun r =>
        match r with
        | Except.ok st => storeGet st ⟨4, 0⟩
        | Except.error _ => none)
      = some (some (NodeValue.Count 10)) := by
  exact ⟨by decide, by decide⟩

/-- C7 counterexample: the empty graph is a valid DAG and its first
`prepare` returns true, yet a second call to `prepare` returns false
(because `prepare_graph_order` bails out when waves are already cached),
refuting "for every valid DAG, every call to prepare returns true". -/
theorem second_prepare_false_on_valid_dag :
    emptyGraph.nodes = [] ∧
    ((emptyGraph.prepare 1).map Prod.fst) = some true ∧
    (((emptyGraph.prepare 1).bind fun p => p.2.prepare 1).map Prod.fst)
      = some false :=
  ⟨rfl, rfl, rfl⟩

/-- C8 counterexample: on the graph wiring output index 1 of vertex 1,
which declares only one output, `prepare` itself panics (the unwraps in
`compute_active_outputs`), so the error surfaces during `prepare` and not
at execute time; `execute` on the unprepared graph merely reports the
precondition error and never an `ErrInvalidWire`. -/
theorem oor_wire_error_not_at_execute :
    oorWireGraph.prepare 2 = none ∧
    oorWireGraph.execute
      = some (Except.error "Must call .prepare() before executing the graph.") :=
  ⟨rfl, rfl⟩

/-- C9 counterexample: after preparing the diamond graph and then calling
`set_node`, the cached executors and the worker pool are still present
(only `waves` is cleared), refuting "all cached fields are invalidated". -/
theorem set_node_leaves_executors_cached :
    ((diamondGraph.prepare 2).map fun p =>
      ((p.2.set_node ⟨5, "output_1", []⟩).executors.isSome,
       (p.2.set_node ⟨5, "output_1", []⟩).runner))
      = some (true, some 2) := by
  decide

/-- C9 amended: after `set_node` or `remove_node` the state is
`Unprepared`, the cached waves are cleared, and a subsequent `execute`
returns the precondition error; the cached executors and the worker pool,
however, are left in place. -/
theorem mutation_resets_state_and_waves_only (g : ComputeGraph) (n : Node)
    (node_id : Nat) :
    (g.set_node n).get_state = ComputeGraphState.Unprepared ∧
    (g.set_node n).waves = none ∧
    (g.set_node n).execute
      = some (Except.error "Must call .prepare() before executing the graph.") ∧
    (g.set_node n).executors = g.executors ∧
    (g.set_node n).runner = g.runner ∧
    (g.remove_node node_id).get_state = ComputeGraphState.Unprepared ∧
    (g.remove_node node_id).waves = none ∧
    (g.remove_node node_id).execute
      = some (Except.error "Must call .prepare() before executing the graph.") ∧
    (g.remove_node node_id).executors = g.executors ∧
    (g.remove_node node_id).runner = g.runner := by
  refine ⟨rfl, rfl, ?_, rfl, rfl, rfl, rfl, ?_, rfl, rfl⟩ <;>
    simp [ComputeGraph.execute, ComputeGraph.set_node, ComputeGraph.remove_node]

/-- C10: on a graph with an empty vertex map, `prepare` succeeds for any
`max_threads` — returning true, reaching state `Ready` with an empty wave
list — and a subsequent `execute` returns an empty result store. -/
theorem empty_graph_prepare_and_execute (t : Nat) :
    ((emptyGraph.prepare t).map fun p => (p.1, p.2.get_state, p.2.waves))
      = some (true, ComputeGraphState.Ready, some []) ∧
    ((emptyGraph.prepare t).bind fun p => p.2.execute) = some (Except.ok []) :=
  ⟨rfl, rfl⟩

end Proton
